import Mathlib

/-!
Verification development for the Auto-Licenser tool (src/AutoLicenser.py).

Python strings are modelled as `List Char` (sequences of Unicode code points).
The model covers the ASCII behaviour of Python's case conversions and of the
whitespace class used by `str.strip` and the regex `\s` (space, tab, newline,
carriage return, vertical tab, form feed); the tool only ever compares against
ASCII literals, so this is the relevant fragment.

Each Python helper of the source file is translated to a Lean definition of
the same name (in lowerCamelCase).  Recursions that are not structural in
Python (scanning replace, digit expansion, the `while True` collision loop)
are written with an explicit fuel argument that provably suffices, so that
every definition is executable by the kernel.
-/

/-- Characters matched by Python's `\s` (ASCII fragment) and stripped by `str.strip()`. -/
def pyIsSpace (c : Char) : Bool :=
  c = ' ' || c = '\t' || c = '\n' || c = '\x0d' || c = '\x0b' || c = '\x0c'

/-- Remove trailing characters satisfying `p` (helper for `pyStrip`). -/
def dropTrailing (p : Char → Bool) (l : List Char) : List Char :=
  ((l.reverse).dropWhile p).reverse

/-- Model of Python `str.strip()`: remove leading and trailing whitespace. -/
def pyStrip (l : List Char) : List Char :=
  dropTrailing pyIsSpace (l.dropWhile pyIsSpace)

/-- Model of Python `str.lower()` (ASCII fragment). -/
def lowerStr (l : List Char) : List Char := l.map Char.toLower

/-- Model of Python `str.upper()` (ASCII fragment). -/
def upperStr (l : List Char) : List Char := l.map Char.toUpper

/-- Model of the Python substring test `needle in hay`. -/
def containsSub (needle : List Char) : List Char → Bool
  | [] => needle.isEmpty
  | c :: rest => needle.isPrefixOf (c :: rest) || containsSub needle rest

/-- Fuel-indexed scanner behind `pyReplace`; one unit of fuel per retained or
replaced position, so fuel equal to the length of the scanned list suffices. -/
def pyReplaceGo (old new : List Char) : Nat → List Char → List Char
  | _, [] => []
  | 0, s => s
  | fuel + 1, c :: rest =>
    if old ≠ [] ∧ old.isPrefixOf (c :: rest) then
      new ++ pyReplaceGo old new fuel ((c :: rest).drop old.length)
    else
      c :: pyReplaceGo old new fuel rest

/-- Model of Python `str.replace(old, new)`: replace every occurrence of
`old`, scanning left to right, non-overlapping.  (The tool only ever calls it
with a non-empty `old`.) -/
def pyReplace (old new s : List Char) : List Char :=
  pyReplaceGo old new s.length s

/-- Split a character list at a separator character (model of splitting a
path string on `/`). -/
def splitOnChar (sep : Char) : List Char → List (List Char)
  | [] => [[]]
  | c :: rest =>
    match splitOnChar sep rest with
    | [] => [[]]
    | g :: gs => if c = sep then [] :: g :: gs else (c :: g) :: gs

/-- Model of `pathlib.Path(s).name` for slash-separated paths: the last
non-empty path segment (empty when there is none). -/
def pathBasename (s : List Char) : List Char :=
  (((splitOnChar '/' s).filter (fun seg => seg ≠ [])).getLast?).getD []

/-- Model of Python `sep.join(parts)`. -/
def joinSep (sep : List Char) : List (List Char) → List Char
  | [] => []
  | [x] => x
  | x :: y :: rest => x ++ sep ++ joinSep sep (y :: rest)

/-- Model of Python string comparison `a < b` (lexicographic by code point). -/
def strLt : List Char → List Char → Bool
  | [], [] => false
  | [], _ :: _ => true
  | _ :: _, [] => false
  | a :: xs, b :: ys => if a = b then strLt xs ys else decide (a.toNat < b.toNat)

/-- Decimal digit character for a digit below ten. -/
def digitChar (d : Nat) : Char :=
  if d = 0 then '0' else if d = 1 then '1' else if d = 2 then '2'
  else if d = 3 then '3' else if d = 4 then '4' else if d = 5 then '5'
  else if d = 6 then '6' else if d = 7 then '7' else if d = 8 then '8' else '9'

/-- Numeric value of a decimal digit character. -/
def digitVal (c : Char) : Nat := c.toNat - 48

/-- Fuel-indexed digit expansion behind `natDigits`; fuel `n` suffices for
input `n` because the argument strictly decreases under division by ten. -/
def natDigitsGo : Nat → Nat → List Char
  | 0, n => [digitChar (n % 10)]
  | fuel + 1, n =>
    if n < 10 then [digitChar n]
    else natDigitsGo fuel (n / 10) ++ [digitChar (n % 10)]

/-- Model of Python `f"{i}"` for a natural number: its decimal digits. -/
def natDigits (n : Nat) : List Char := natDigitsGo n n

/-- Decimal read-back used to prove `natDigits` injective. -/
def natValAux (acc : Nat) : List Char → Nat
  | [] => acc
  | c :: rest => natValAux (acc * 10 + digitVal c) rest

/-! ## String constants of the tool -/

/-- The classifier marker `"License ::"`. -/
def licMarker : List Char := "License ::".data

/-- The noise marker `"OSI Approved ::"`. -/
def osiMarker : List Char := "OSI Approved ::".data

/-- The literal word `"License"` (stripped from the tail of classifier tokens). -/
def licWord : List Char := "License".data

/-- The join separator `"; "`. -/
def sepTok : List Char := "; ".data

/-- The sentinel label `"UNKNOWN"`. -/
def unknownTok : List Char := "UNKNOWN".data

/-- The flagged keywords of `_looks_like_full_text`. -/
def fullTextKeywords : List (List Char) :=
  ["copyright".data, "permission".data, "warranty".data,
   "redistribution".data, "liability".data]

/-! ## License Inference Engine (`_infer_license_from_metadata`) -/

/-- The metadata fields the Inference Engine reads: the repeated
`Classifier` values and the optional single-valued `License` field. -/
structure PyMetadata where
  classifiers : List (List Char)
  licenseField : Option (List Char)

/-- `lic_classifiers`: the stripped classifier values that start with
`"License ::"` (source lines 74-78). -/
def licClassifiersOf (classifiers : List (List Char)) : List (List Char) :=
  classifiers.filterMap (fun c =>
    let s := pyStrip c
    if licMarker.isPrefixOf s then some s else none)

/-- First-seen-order deduplication with an explicit `seen` accumulator, as in
the loop of `_short_from_classifiers` (source lines 85-90). -/
def dedupFirstAux (seen : List (List Char)) : List (List Char) → List (List Char)
  | [] => []
  | x :: xs =>
    if x ∈ seen then dedupFirstAux seen xs
    else x :: dedupFirstAux (x :: seen) xs

/-- `_short_from_classifiers` (source lines 80-98): clean each item, keep the
first occurrence of each, simplify, and join with `"; "`. -/
def shortFromClassifiers (items : List (List Char)) : List Char :=
  if items = [] then []
  else
    let cleaned := items.map (fun x => pyStrip (pyReplace licMarker [] x))
    let uniq := dedupFirstAux [] cleaned
    let simplified := uniq.map (fun x =>
      let s := pyStrip (pyReplace osiMarker [] x)
      if licWord.isSuffixOf s then pyStrip (s.take (s.length - licWord.length)) else s)
    joinSep sepTok simplified

/-- `_looks_like_full_text` (source lines 106-115). -/
def looksLikeFullText (s : List Char) : Bool :=
  if s = [] then false
  else if ('\n' ∈ s) || ('\x0d' ∈ s) then true
  else if 120 < s.length then true
  else fullTextKeywords.any (fun k => containsSub k (lowerStr s))

/-- The classifier guess computed by `_infer_license_from_metadata`
(source line 100). -/
def classifierGuessOf (m : PyMetadata) : List Char :=
  shortFromClassifiers (licClassifiersOf m.classifiers)

/-- The stripped `License` field read by `_infer_license_from_metadata`
(source line 103); a missing field is the empty string. -/
def licFieldOf (m : PyMetadata) : List Char :=
  pyStrip (m.licenseField.getD [])

/-- `_infer_license_from_metadata` (source lines 63-123). -/
def inferLicenseFromMetadata (m : PyMetadata) : List Char :=
  let guess := classifierGuessOf m
  let licField := licFieldOf m
  if looksLikeFullText licField then
    (if guess = [] then unknownTok else guess)
  else if licField ≠ [] ∧ upperStr licField ≠ unknownTok then
    licField
  else
    (if guess = [] then unknownTok else guess)

/-! ## Name Normalizer (`_norm_name`) -/

/-- The character class `[A-Za-z0-9._+-]` of `_norm_name`. -/
def isSafeChar (c : Char) : Bool :=
  ('A' ≤ c && c ≤ 'Z') || ('a' ≤ c && c ≤ 'z') || ('0' ≤ c && c ≤ '9') ||
  c = '.' || c = '_' || c = '+' || c = '-'

/-- Scanner behind `reSubWsRuns`; the flag records whether the previous
character was whitespace, so only the first character of a run emits `'_'`. -/
def reSubWsRunsGo (prevWs : Bool) : List Char → List Char
  | [] => []
  | c :: rest =>
    if pyIsSpace c then
      (if prevWs then [] else ['_']) ++ reSubWsRunsGo true rest
    else c :: reSubWsRunsGo false rest

/-- Model of `re.sub(r"\s+", "_", s)`: each maximal run of whitespace becomes
a single underscore. -/
def reSubWsRuns (s : List Char) : List Char := reSubWsRunsGo false s

/-- Model of `re.sub(r"[^A-Za-z0-9._+-]", "_", s)`: every unsafe character
becomes an underscore. -/
def reSubUnsafe (s : List Char) : List Char :=
  s.map (fun c => if isSafeChar c then c else '_')

/-- `_norm_name` (source lines 56-60): strip, collapse whitespace runs to
underscores, replace unsafe characters by underscores. -/
def normName (name : List Char) : List Char :=
  reSubUnsafe (reSubWsRuns (pyStrip name))

/-! ## License File Locator (`_select_license_files_from_dist`) -/

/-- The tokens of `LICENSE_BASENAME_RE` (source line 45). -/
def licenseBaseTokens : List (List Char) :=
  ["LICENSE".data, "COPYING".data, "NOTICE".data]

/-- Model of `LICENSE_BASENAME_RE.match(base)`: the pattern
`^(LICENSE|COPYING|NOTICE)([._-].+)?$` with `re.IGNORECASE`, on basenames
that contain no newline (`.` does not match a newline). -/
def matchesLicenseBase (b : List Char) : Bool :=
  let u := upperStr b
  licenseBaseTokens.any (fun t =>
    t.isPrefixOf u &&
      (match u.drop t.length with
       | [] => true
       | s :: rest => (s = '.' || s = '_' || s = '-') && rest ≠ [] && '\n' ∉ rest))

/-- The file-system operations the Locator consumes: `dist.locate_file`,
`Path.is_file` and `Path.resolve`. -/
structure DistFs where
  locate : List Char → List Char
  isFile : List Char → Bool
  resolve : List Char → List Char

/-- `str(f).replace("\\", "/")` (source line 188). -/
def normSlashes (s : List Char) : List Char :=
  s.map (fun c => if c = '\\' then '/' else c)

/-- The literal `"/.dist-info/"` tested on manifest entries (source line 192). -/
def slashDistInfoTok : List Char := "/.dist-info/".data

/-- The literal `".dist-info"` tested as a suffix (source line 192). -/
def distInfoTok : List Char := ".dist-info".data

/-- The literal `"/.dist-info/licenses/"` tested on lowercased entries
(source line 196). -/
def slashDistInfoLicensesTok : List Char := "/.dist-info/licenses/".data

/-- The literal `"licenses/"` tested in the fallback walk (source line 214). -/
def licensesSlashTok : List Char := "licenses/".data

/-- Whether one manifest entry qualifies in the primary tier (source lines
187-203): the dist-info branch with its two sub-checks, falling through to
the bare basename check. -/
def manifestHit (s : List Char) : Bool :=
  let base := pathBasename s
  if containsSub slashDistInfoTok s || distInfoTok.isSuffixOf s then
    if matchesLicenseBase base then true
    else if containsSub slashDistInfoLicensesTok (lowerStr s) then true
    else matchesLicenseBase base
  else matchesLicenseBase base

/-- The primary tier of the Locator: scan `dist.files`, keep each qualifying
entry that resolves to an existing regular file (source lines 184-203). -/
def selectFromManifest (fs : DistFs) (files : List (List Char)) : List (List Char) :=
  files.foldr
    (fun f acc =>
      let s := normSlashes f
      if manifestHit s then
        (if fs.isFile (fs.locate f) then fs.locate f :: acc else acc)
      else acc)
    []

/-- One entry of the fallback `rglob` walk over the dist-info directory:
its absolute path, its path relative to that directory, and whether it is a
regular file. -/
structure WalkEntry where
  abs : List Char
  rel : List Char
  isFile : Bool

/-- The fallback tier of the Locator (source lines 206-215): keep every
regular file whose basename matches, or whose lowercased relative path
starts with `licenses/`. -/
def selectFromWalk (entries : List WalkEntry) : List (List Char) :=
  entries.foldr
    (fun e acc =>
      if e.isFile then
        (if matchesLicenseBase (pathBasename e.abs) then e.abs :: acc
         else if licensesSlashTok.isPrefixOf (lowerStr (normSlashes e.rel)) then e.abs :: acc
         else acc)
      else acc)
    []

/-- The final deduplication loop of the Locator (source lines 217-225):
keep the first path for each lowercased resolved key. -/
def dedupByResolved (fs : DistFs) (seen : List (List Char)) :
    List (List Char) → List (List Char)
  | [] => []
  | p :: rest =>
    let key := lowerStr (fs.resolve p)
    if key ∈ seen then dedupByResolved fs seen rest
    else p :: dedupByResolved fs (key :: seen) rest

/-- `_select_license_files_from_dist` (source lines 173-225).  `files` is
`dist.files` (`none` models a missing RECORD); `walk` is the `rglob` listing
of the dist-info directory when that directory was found and is a directory
(`none` otherwise). -/
def selectLicenseFilesFromDist (fs : DistFs) (files : Option (List (List Char)))
    (walk : Option (List WalkEntry)) : List (List Char) :=
  let paths := selectFromManifest fs (files.getD [])
  let paths :=
    if paths = [] then
      match walk with
      | some entries => selectFromWalk entries
      | none => paths
    else paths
  dedupByResolved fs [] paths

/-! ## Collision-safe copying (`_copy_with_unique_name`) -/

/-- Index of the last `'.'` in a name, if any (helper for `Path.stem` and
`Path.suffix`). -/
def lastDotIdx (name : List Char) : Option Nat :=
  ((List.range name.length).filter (fun i => name.getD i ' ' = '.')).getLast?

/-- Model of `(stem, suffix) = (Path(name).stem, Path(name).suffix)` for a
single path component: split at the last dot when it is neither the first
nor the last character, else the suffix is empty. -/
def pathSplitExt (name : List Char) : List Char × List Char :=
  match lastDotIdx name with
  | some i =>
    if 0 < i ∧ i < name.length - 1 then (name.take i, name.drop i) else (name, [])
  | none => (name, [])

/-- The collision candidate `f"{stem}_{i}{suffix}"` (source line 245). -/
def candName (stem ext : List Char) (i : Nat) : List Char :=
  stem ++ '_' :: (natDigits i ++ ext)

/-- Fuel-indexed model of the `while True` collision loop (source lines
243-249): try `candName stem ext i`, `i+1`, ... until a name is free.  Fuel
`existing.length + 1` provably suffices because the candidates are pairwise
distinct. -/
def firstFreeName (existing : List (List Char)) (stem ext : List Char) :
    Nat → Nat → List Char
  | 0, i => candName stem ext i
  | fuel + 1, i =>
    if candName stem ext i ∈ existing then firstFreeName existing stem ext fuel (i + 1)
    else candName stem ext i

/-- The name chosen by `_copy_with_unique_name` (source lines 228-252), as a
function of the set of names already existing in the output directory.  The
returned name is the one the copied file gets. -/
def copyName (existing : List (List Char)) (pfx base : List Char) : List Char :=
  let dstName := pfx ++ '-' :: base
  if dstName ∈ existing then
    let stemExt := pathSplitExt dstName
    firstFreeName existing stemExt.1 stemExt.2 (existing.length + 1) 2
  else dstName

/-- One copy request of a run: a source path and the normalized-name
prefix used for it. -/
structure CopyJob where
  src : List Char
  pfx : List Char

/-- A whole run of copies into one output directory: thread the set of
existing names through successive `_copy_with_unique_name` calls, returning
the copied names in order and the final directory contents. -/
def runCopies (existing : List (List Char)) :
    List CopyJob → List (List Char) × List (List Char)
  | [] => ([], existing)
  | j :: rest =>
    let nm := copyName existing j.pfx (pathBasename j.src)
    let r := runCopies (nm :: existing) rest
    (nm :: r.1, r.2)

/-! ## Collector (`collect_licenses`) -/

/-- The `DistLicenseCopy` record (source lines 48-53). -/
structure DistLicenseCopy where
  distName : List Char
  distVersion : List Char
  inferredLicense : List Char
  copiedFiles : List (List Char)
deriving DecidableEq

/-- Insert into a by-key sorted list, before the first strictly greater
element (helper for the stable sorts below). -/
def insertByLt (lt : List Char → List Char → Bool) (key : α → List Char)
    (a : α) : List α → List α
  | [] => [a]
  | b :: rest =>
    if lt (key b) (key a) then b :: insertByLt lt key a rest
    else a :: b :: rest

/-- Stable sort by key (model of Python `sorted(xs, key=...)`: elements with
equal keys keep their original relative order). -/
def sortByKey (key : α → List Char) : List α → List α
  | [] => []
  | x :: xs => insertByLt strLt key x (sortByKey key xs)

/-- One distribution of the metadata catalog, together with the file-system
facts its processing consumes: the `Name` metadata field and the `dist.name`
fallback (the empty string models a missing or empty value, which is falsy in
Python), the version, the metadata seen by the Inference Engine, the
Locator inputs, and whether copying a given source file succeeds
(`copyErr` is the exception text shown on failure). -/
structure DistEntry where
  metaName : List Char
  fbName : List Char
  version : List Char
  meta : PyMetadata
  fs : DistFs
  files : Option (List (List Char))
  walk : Option (List WalkEntry)
  copyOk : List Char → Bool
  copyErr : List Char → List Char

/-- `dist.metadata.get("Name") or dist.name` (source line 289). -/
def effName (d : DistEntry) : List Char :=
  if d.metaName = [] then d.fbName else d.metaName

/-- The warning emitted when a distribution yields no copied file
(source line 314). -/
def warnNoLicense (n v : List Char) : List Char :=
  "[WARN] no license file found for: ".data ++ n ++ " ".data ++ v

/-- The warning emitted when one copy fails (source line 311). -/
def warnCopyFailed (n v p e : List Char) : List Char :=
  "[WARN] copy failed: ".data ++ n ++ " ".data ++ v ++ " : ".data ++ p
    ++ " : ".data ++ e

/-- The body of the `for dist in sorted(dists, ...)` loop (source lines
288-323) for one distribution: `st` is the set of names existing in the
output directory.  Returns the result record (when one is produced), the
warnings emitted for this distribution, and the updated directory contents.
A failed copy is assumed to fail before the destination is created. -/
def processDist (exclude : List (List Char)) (st : List (List Char))
    (d : DistEntry) :
    Option DistLicenseCopy × List (List Char) × List (List Char) :=
  let distName := effName d
  if distName = [] then (none, [], st)
  else if lowerStr (normName distName) ∈ exclude ∨ lowerStr distName ∈ exclude then
    (none, [], st)
  else
    let distVer := if d.version = [] then unknownTok else d.version
    let inferred := inferLicenseFromMetadata d.meta
    let licFiles := selectLicenseFilesFromDist d.fs d.files d.walk
    let pfx := normName distName
    let folded := licFiles.foldl
      (fun (acc : List (List Char) × List (List Char) × List (List Char)) lf =>
        if d.copyOk lf then
          let nm := copyName acc.2.2 pfx (pathBasename lf)
          (acc.1 ++ [nm], acc.2.1, nm :: acc.2.2)
        else
          (acc.1, acc.2.1 ++ [warnCopyFailed distName distVer lf (d.copyErr lf)],
           acc.2.2))
      ([], [], st)
    let warns :=
      if folded.1 = [] then folded.2.1 ++ [warnNoLicense distName distVer]
      else folded.2.1
    (some ⟨distName, distVer, inferred, sortByKey id folded.1⟩, warns, folded.2.2)

/-- The whole catalog loop: fold `processDist` over a list of distributions,
concatenating results and warnings and threading the directory contents. -/
def collectLoop (exclude : List (List Char)) (st : List (List Char)) :
    List DistEntry → List DistLicenseCopy × List (List Char) × List (List Char)
  | [] => ([], [], st)
  | d :: rest =>
    let r := processDist exclude st d
    let tail := collectLoop exclude r.2.2 rest
    (r.1.toList ++ tail.1, r.2.1 ++ tail.2.1, tail.2.2)

/-- The host-runtime facts used by `_try_copy_python_license` (source lines
255-268): `sys.base_prefix`, a regular-file test, and `sys.version`. -/
structure PyRuntimeEnv where
  basePath : List Char
  isFile : List Char → Bool
  version : List Char

/-- The fixed candidate file names of `_try_copy_python_license`. -/
def pythonLicenseCandidates (base : List Char) : List (List Char) :=
  [base ++ "/LICENSE.txt".data, base ++ "/LICENSE".data, base ++ "/LICENSE.rst".data]

/-- `_try_copy_python_license` (source lines 255-268): copy the first
existing candidate with prefix `"Python"`, returning the copied name and the
updated directory contents. -/
def tryCopyPythonLicense (env : PyRuntimeEnv) (st : List (List Char)) :
    Option (List Char × List (List Char)) :=
  (pythonLicenseCandidates env.basePath).findSome?
    (fun c =>
      if env.isFile c then
        let nm := copyName st "Python".data (pathBasename c)
        some (nm, nm :: st)
      else none)

/-- The fixed label of the synthetic Python entry (source line 333). -/
def psfLabel : List Char :=
  "Python Software Foundation License (PSF-2.0)".data

/-- The warning for a missing runtime license (source line 338). -/
def pyNotFoundWarning : List Char :=
  "[WARN] Python runtime LICENSE was not found under sys.base_prefix.".data

/-- First whitespace-separated token (model of `sys.version.split()[0]`). -/
def firstWord (s : List Char) : List Char :=
  (s.dropWhile pyIsSpace).takeWhile (fun c => !pyIsSpace c)

/-- `collect_licenses` (source lines 271-340): sort the catalog by
case-insensitive name, run the loop, then handle the runtime license. -/
def collectLicenses (env : PyRuntimeEnv) (exclude : List (List Char))
    (st : List (List Char)) (dists : List DistEntry) :
    List DistLicenseCopy × List (List Char) :=
  let sorted := sortByKey (fun d => lowerStr (effName d)) dists
  let looped := collectLoop exclude st sorted
  match tryCopyPythonLicense env looped.2.2 with
  | some r =>
    let pyVer := if env.version = [] then unknownTok else firstWord env.version
    (looped.1 ++ [⟨"Python".data, pyVer, psfLabel, [r.1]⟩], looped.2.1)
  | none => (looped.1, looped.2.1 ++ [pyNotFoundWarning])

/-! ## Definitions following the spec's words (for comparison with the code) -/

/-- Normalization exactly as the spec sentence for claim C8 words it:
replace whitespace runs, then replace unsafe characters — with no initial
trim. -/
def specNormalize (name : List Char) : List Char :=
  reSubUnsafe (reSubWsRuns name)

/-- Fuel-indexed scanner behind `removeFirst`. -/
def removeFirstGo (old : List Char) : Nat → List Char → List Char
  | _, [] => []
  | 0, s => s
  | fuel + 1, c :: rest =>
    if old.isPrefixOf (c :: rest) then (c :: rest).drop old.length
    else c :: removeFirstGo old fuel rest

/-- Remove the first (leftmost) occurrence of `old`, leaving the rest of the
string unchanged — one reading of the spec's "strip an embedded marker". -/
def removeFirst (old s : List Char) : List Char :=
  removeFirstGo old s.length s

/-- Fuel-indexed first-seen deduplication by filtering later duplicates;
fuel equal to the list length suffices. -/
def dedupKeepFirstGo : Nat → List (List Char) → List (List Char)
  | _, [] => []
  | 0, l => l
  | fuel + 1, x :: xs => x :: dedupKeepFirstGo fuel (xs.filter (fun y => y ≠ x))

/-- Keep the first occurrence of each element, preserving order. -/
def dedupKeepFirst (l : List (List Char)) : List (List Char) :=
  dedupKeepFirstGo l.length l

/-- The classifier-guess pipeline exactly as claim C2 words it: take the
`Classifier` values whose text begins with `"License ::"`, strip that
prefix, trim, deduplicate keeping first occurrences, remove an embedded
`"OSI Approved ::"` marker, remove a trailing `"License"` suffix (trimmed),
join with `"; "`. -/
def specClassifierGuess (classifiers : List (List Char)) : List Char :=
  let vals := classifiers.filter (fun c => licMarker.isPrefixOf c)
  let cleaned := vals.map (fun c => pyStrip (c.drop licMarker.length))
  let uniq := dedupKeepFirst cleaned
  let simplified := uniq.map (fun x =>
    let s := pyStrip (removeFirst osiMarker x)
    if licWord.isSuffixOf s then pyStrip (s.take (s.length - licWord.length)) else s)
  joinSep sepTok simplified

/-- The `Classifier` values whose whitespace-trimmed text begins with
`"License ::"`, each taken trimmed (the amended reading of claim C2). -/
def specTrimmedLicenseValues (classifiers : List (List Char)) : List (List Char) :=
  (classifiers.map pyStrip).filter (fun c => licMarker.isPrefixOf c)

/-- The classifier-guess pipeline as amended for claim C2: on each trimmed
qualifying value, delete every occurrence of `"License ::"` and trim;
deduplicate keeping first occurrences; delete every occurrence of
`"OSI Approved ::"` and trim; remove a trailing `"License"` suffix
(trimmed); join with `"; "`. -/
def specClassifierGuessAmended (classifiers : List (List Char)) : List Char :=
  let cleaned := (specTrimmedLicenseValues classifiers).map
    (fun c => pyStrip (pyReplace licMarker [] c))
  let uniq := dedupKeepFirst cleaned
  let simplified := uniq.map (fun x =>
    let s := pyStrip (pyReplace osiMarker [] x)
    if licWord.isSuffixOf s then pyStrip (s.take (s.length - licWord.length)) else s)
  joinSep sepTok simplified

/-- The literal word `"licenses"`. -/
def licensesWord : List Char := "licenses".data

/-- The qualifying condition of claim C3, modelled from its words: the entry
sits below a `licenses/` subdirectory of a path segment ending in the
`.dist-info` metadata-directory marker (both compared case-insensitively). -/
def underMetaLicensesSubdir (s : List Char) : Bool :=
  let segs := splitOnChar '/' (normSlashes s)
  (List.range segs.length).any (fun i =>
    distInfoTok.isSuffixOf (lowerStr (segs.getD i [])) &&
    lowerStr (segs.getD (i + 1) []) = licensesWord &&
    decide (i + 2 < segs.length))

/-! ## Concrete example inputs used by witnesses and counterexamples -/

/-- Metadata whose `License` field is a flagged keyword that also comes back
as the classifier guess. -/
def exMetaKeyword : PyMetadata :=
  { classifiers := ["License :: copyright".data],
    licenseField := some ("copyright".data) }

/-- Metadata with a full-text-like `License` field and no classifiers. -/
def exMetaWarranty : PyMetadata :=
  { classifiers := [],
    licenseField := some ("Provided with no warranty of any kind".data) }

/-- A pathological classifier list separating the code's pipeline from the
spec's wording of it. -/
def exClsPathological : List (List Char) :=
  [" License :: License :: OSI Approved :: OSI Approved :: MIT".data]

/-- The MIT scenario of the spec. -/
def exMetaMIT : PyMetadata :=
  { classifiers := ["License :: OSI Approved :: MIT License".data],
    licenseField := none }

/-- Metadata carrying a classifier with an embedded newline. -/
def exMetaNewline : PyMetadata :=
  { classifiers := ["License :: A\nB".data], licenseField := none }

/-- A trivial file system in which every path exists as a regular file and
paths resolve to themselves. -/
def exFsAllFiles : DistFs :=
  { locate := fun p => p, isFile := fun _ => true, resolve := fun p => p }

/-- A manifest entry below the `licenses/` subdirectory of a real metadata
directory, with a basename that is not license-like. -/
def exAuthorsEntry : List Char :=
  "foo-1.0.dist-info/licenses/AUTHORS.txt".data

/-- A catalog distribution named `Foo` with no metadata signal and no files. -/
def exDistFoo : DistEntry :=
  { metaName := "Foo".data, fbName := [], version := "1.0".data,
    meta := { classifiers := [], licenseField := none },
    fs := exFsAllFiles, files := none, walk := none,
    copyOk := fun _ => true, copyErr := fun _ => [] }

/-- A catalog distribution literally named `pip`. -/
def exDistPip : DistEntry :=
  { metaName := "pip".data, fbName := [], version := "24.0".data,
    meta := { classifiers := [], licenseField := some ("MIT".data) },
    fs := exFsAllFiles, files := none, walk := none,
    copyOk := fun _ => true, copyErr := fun _ => [] }

/-- A catalog distribution whose `Name` field and fallback name are both
missing. -/
def exDistNameless : DistEntry :=
  { metaName := [], fbName := [], version := "1.0".data,
    meta := { classifiers := [], licenseField := some ("MIT".data) },
    fs := exFsAllFiles, files := some ["LICENSE".data], walk := none,
    copyOk := fun _ => true, copyErr := fun _ => [] }

/-! ## Helper lemmas -/

theorem mem_dropTrailing {a : Char} {p : Char → Bool} {l : List Char}
    (h : a ∈ dropTrailing p l) : a ∈ l := by
  unfold dropTrailing at h
  rw [List.mem_reverse] at h
  exact List.mem_reverse.mp ((List.dropWhile_sublist p).mem h)

theorem mem_pyStrip {a : Char} {l : List Char} (h : a ∈ pyStrip l) : a ∈ l :=
  (List.dropWhile_sublist pyIsSpace).mem (mem_dropTrailing h)

theorem mem_pyReplaceGo_nil {a : Char} {old : List Char} :
    ∀ (fuel : Nat) (s : List Char), a ∈ pyReplaceGo old [] fuel s → a ∈ s := by
  intro fuel
  induction fuel with
  | zero =>
    intro s h
    cases s with
    | nil => exact h
    | cons c rest => exact h
  | succ fuel ih =>
    intro s h
    cases s with
    | nil => exact h
    | cons c rest =>
      rw [pyReplaceGo] at h
      by_cases hb : old ≠ [] ∧ old.isPrefixOf (c :: rest)
      · rw [if_pos hb, List.nil_append] at h
        exact List.mem_of_mem_drop (ih _ h)
      · rw [if_neg hb] at h
        rcases List.mem_cons.mp h with h | h
        · exact h ▸ List.mem_cons_self c rest
        · exact List.mem_cons_of_mem c (ih rest h)

theorem mem_pyReplace_nil {a : Char} {old s : List Char}
    (h : a ∈ pyReplace old [] s) : a ∈ s :=
  mem_pyReplaceGo_nil s.length s h

theorem mem_dedupFirstAux {a : List Char} :
    ∀ {l seen : List (List Char)}, a ∈ dedupFirstAux seen l → a ∈ l := by
  intro l
  induction l with
  | nil => intro seen h; exact absurd h (List.not_mem_nil a)
  | cons x xs ih =>
    intro seen h
    rw [dedupFirstAux] at h
    by_cases hx : x ∈ seen
    · rw [if_pos hx] at h
      exact List.mem_cons_of_mem x (ih h)
    · rw [if_neg hx] at h
      rcases List.mem_cons.mp h with h | h
      · exact h ▸ List.mem_cons_self x xs
      · exact List.mem_cons_of_mem x (ih h)

theorem mem_joinSep {a : Char} {sep : List Char} :
    ∀ {parts : List (List Char)}, a ∈ joinSep sep parts →
      a ∈ sep ∨ ∃ x ∈ parts, a ∈ x := by
  intro parts
  induction parts with
  | nil => intro h; exact absurd h (List.not_mem_nil a)
  | cons x ys ih =>
    intro h
    cases ys with
    | nil => exact Or.inr ⟨x, List.mem_cons_self x [], h⟩
    | cons y rest =>
      rw [joinSep, List.append_assoc, List.mem_append] at h
      rcases h with h | h
      · exact Or.inr ⟨x, List.mem_cons_self x _, h⟩
      · rw [List.mem_append] at h
        rcases h with h | h
        · exact Or.inl h
        · rcases ih h with h | ⟨z, hz, ha⟩
          · exact Or.inl h
          · exact Or.inr ⟨z, List.mem_cons_of_mem x hz, ha⟩

theorem mem_shortFromClassifiers {a : Char} {items : List (List Char)}
    (h : a ∈ shortFromClassifiers items) :
    a ∈ sepTok ∨ ∃ x ∈ items, a ∈ x := by
  unfold shortFromClassifiers at h
  by_cases hi : items = []
  · rw [if_pos hi] at h
    exact absurd h (List.not_mem_nil a)
  · rw [if_neg hi] at h
    rcases mem_joinSep h with h | ⟨y, hy, ha⟩
    · exact Or.inl h
    · rcases List.mem_map.mp hy with ⟨u, hu, rfl⟩
      have hmem : a ∈ u := by
        by_cases hsfx :
            licWord.isSuffixOf (pyStrip (pyReplace osiMarker [] u)) = true
        · simp only [hsfx, if_pos] at ha
          exact mem_pyReplace_nil (mem_pyStrip (List.mem_of_mem_take (mem_pyStrip ha)))
        · simp only [Bool.not_eq_true] at hsfx
          simp only [hsfx, Bool.false_eq_true, if_false] at ha
          exact mem_pyReplace_nil (mem_pyStrip ha)
      rcases List.mem_map.mp (mem_dedupFirstAux hu) with ⟨v, hv, rfl⟩
      exact Or.inr ⟨v, hv, mem_pyReplace_nil (mem_pyStrip hmem)⟩

theorem mem_classifierGuess {a : Char} {m : PyMetadata}
    (h : a ∈ classifierGuessOf m) :
    a ∈ sepTok ∨ ∃ c ∈ m.classifiers, a ∈ c := by
  rcases mem_shortFromClassifiers h with h | ⟨x, hx, ha⟩
  · exact Or.inl h
  · rcases List.mem_filterMap.mp hx with ⟨c, hc, hsome⟩
    by_cases hp : licMarker.isPrefixOf (pyStrip c) = true
    · simp only [hp, if_pos, Option.some.injEq] at hsome
      exact Or.inr ⟨c, hc, mem_pyStrip (hsome ▸ ha)⟩
    · simp only [Bool.not_eq_true] at hp
      simp only [hp, Bool.false_eq_true, if_false] at hsome
      exact absurd hsome (Option.noConfusion)

theorem isPrefixOf_length {p : List Char} :
    ∀ {l : List Char}, p.isPrefixOf l = true → p.length ≤ l.length := by
  induction p with
  | nil => intro l _; exact Nat.zero_le l.length
  | cons a p ih =>
    intro l h
    cases l with
    | nil => exact absurd h (by simp [List.isPrefixOf])
    | cons b l =>
      rw [List.isPrefixOf, Bool.and_eq_true] at h
      exact Nat.succ_le_succ (ih h.2)

theorem containsSub_length {k : List Char} :
    ∀ {s : List Char}, containsSub k s = true → k.length ≤ s.length := by
  intro s
  induction s with
  | nil =>
    intro h
    rw [containsSub, List.isEmpty_iff] at h
    simp [h]
  | cons c rest ih =>
    intro h
    rw [containsSub, Bool.or_eq_true] at h
    rcases h with h | h
    · exact isPrefixOf_length h
    · exact Nat.le_succ_of_le (ih h)

theorem newline_not_mem_of_not_fullText {s : List Char}
    (hne : s ≠ []) (h : looksLikeFullText s = false) :
    '\n' ∉ s ∧ '\x0d' ∉ s := by
  unfold looksLikeFullText at h
  rw [if_neg hne] at h
  constructor
  · intro hmem
    rw [if_pos (by simp [hmem])] at h
    exact Bool.true_eq_false.mp h
  · intro hmem
    rw [if_pos (by simp [hmem])] at h
    exact Bool.true_eq_false.mp h

theorem looksLikeFullText_false_of_upper_unknown {s : List Char}
    (h : upperStr s = unknownTok) : looksLikeFullText s = false := by
  have hlen : s.length = 7 := by
    have := congrArg List.length h
    simpa [upperStr, unknownTok] using this
  have hne : s ≠ [] := by
    intro hnil
    rw [hnil] at hlen
    exact absurd hlen (by decide)
  have hnl : '\n' ∉ s := by
    intro hmem
    have : Char.toUpper '\n' ∈ upperStr s := List.mem_map_of_mem Char.toUpper hmem
    rw [h] at this
    exact absurd this (by decide)
  have hcr : '\x0d' ∉ s := by
    intro hmem
    have : Char.toUpper '\x0d' ∈ upperStr s := List.mem_map_of_mem Char.toUpper hmem
    rw [h] at this
    exact absurd this (by decide)
  have hkw : ∀ k ∈ fullTextKeywords, containsSub k (lowerStr s) = false := by
    intro k hk
    cases hck : containsSub k (lowerStr s) with
    | false => rfl
    | true =>
      have hkl : k.length ≤ (lowerStr s).length := containsSub_length hck
      rw [lowerStr, List.length_map, hlen] at hkl
      have hk8 : 8 ≤ k.length := by
        fin_cases hk <;> decide
      omega
  unfold looksLikeFullText
  rw [if_neg hne, if_neg (by simp [hnl, hcr]), if_neg (by omega)]
  rw [List.any_eq_false]
  intro k hk
  simp [hkw k hk]

theorem digitVal_digitChar : ∀ d, d < 10 → digitVal (digitChar d) = d := by
  intro d hd
  interval_cases d <;> rfl

theorem natValAux_nil (acc : Nat) : natValAux acc [] = acc := rfl

theorem natValAux_cons (acc : Nat) (c : Char) (rest : List Char) :
    natValAux acc (c :: rest) = natValAux (acc * 10 + digitVal c) rest := rfl

theorem natValAux_append (xs ys : List Char) :
    ∀ acc, natValAux acc (xs ++ ys) = natValAux (natValAux acc xs) ys := by
  induction xs with
  | nil => intro acc; rfl
  | cons c rest ih =>
    intro acc
    rw [List.cons_append, natValAux_cons, natValAux_cons, ih]

theorem natValAux_natDigitsGo :
    ∀ (fuel n : Nat), n ≤ fuel → ∀ acc,
      natValAux acc (natDigitsGo fuel n) =
        acc * 10 ^ (natDigitsGo fuel n).length + n := by
  intro fuel
  induction fuel with
  | zero =>
    intro n hn acc
    have hn0 : n = 0 := Nat.le_zero.mp hn
    subst hn0
    show natValAux acc [digitChar (0 % 10)] = acc * 10 ^ 1 + 0
    rw [natValAux_cons, natValAux_nil, digitVal_digitChar (0 % 10) (by omega)]
    omega
  | succ fuel ih =>
    intro n hn acc
    rw [natDigitsGo]
    by_cases hlt : n < 10
    · rw [if_pos hlt]
      rw [natValAux_cons, natValAux_nil, digitVal_digitChar n hlt]
      simp
    · rw [if_neg hlt]
      have hdiv : n / 10 ≤ fuel := by
        have := Nat.div_lt_self (by omega : 0 < n) (by omega : 1 < 10)
        omega
      rw [natValAux_append, ih (n / 10) hdiv acc, natValAux_cons, natValAux_nil,
        digitVal_digitChar (n % 10) (Nat.mod_lt n (by omega)),
        List.length_append, List.length_singleton, pow_succ]
      have hmod : 10 * (n / 10) + n % 10 = n := Nat.div_add_mod n 10
      have hexp : (acc * 10 ^ (natDigitsGo fuel (n / 10)).length + n / 10) * 10
          + n % 10 = acc * (10 ^ (natDigitsGo fuel (n / 10)).length * 10) + n := by
        ring_nf
        omega
      exact hexp

theorem natDigits_injective {m n : Nat} (h : natDigits m = natDigits n) : m = n := by
  have hm := natValAux_natDigitsGo m m (Nat.le_refl m) 0
  have hn := natValAux_natDigitsGo n n (Nat.le_refl n) 0
  rw [Nat.zero_mul, Nat.zero_add] at hm hn
  have hv : natValAux 0 (natDigits m) = natValAux 0 (natDigits n) := by rw [h]
  unfold natDigits at hv
  rw [hm, hn] at hv
  exact hv

theorem candName_injective {stem ext : List Char} {i j : Nat}
    (h : candName stem ext i = candName stem ext j) : i = j := by
  unfold candName at h
  have h1 := List.append_cancel_left h
  injection h1 with _ h2
  exact natDigits_injective (List.append_cancel_right h2)

theorem exists_free_cand (existing : List (List Char)) (stem ext : List Char) :
    ∃ j, 2 ≤ j ∧ j < existing.length + 3 ∧ candName stem ext j ∉ existing := by
  by_contra hall
  push_neg at hall
  have hinj : Function.Injective (fun k => candName stem ext (k + 2)) := by
    intro a b hab
    have := candName_injective hab
    omega
  have hnodup : ((List.range (existing.length + 1)).map
      (fun k => candName stem ext (k + 2))).Nodup :=
    (List.nodup_range (existing.length + 1)).map hinj
  have hsub : ∀ x ∈ (List.range (existing.length + 1)).map
      (fun k => candName stem ext (k + 2)), x ∈ existing := by
    intro x hx
    rcases List.mem_map.mp hx with ⟨k, hk, rfl⟩
    rw [List.mem_range] at hk
    exact hall (k + 2) (by omega) (by omega)
  have hcard :
      ((List.range (existing.length + 1)).map
        (fun k => candName stem ext (k + 2))).toFinset.card =
        existing.length + 1 := by
    rw [List.toFinset_card_of_nodup hnodup, List.length_map, List.length_range]
  have hle : ((List.range (existing.length + 1)).map
      (fun k => candName stem ext (k + 2))).toFinset.card ≤
        existing.toFinset.card := by
    apply Finset.card_le_card
    intro x hx
    rw [List.mem_toFinset] at hx ⊢
    exact hsub x hx
  have hfin := existing.toFinset_card_le
  omega

theorem firstFreeName_not_mem {existing : List (List Char)} {stem ext : List Char} :
    ∀ (fuel i : Nat),
      (∃ j, i ≤ j ∧ j < i + fuel ∧ candName stem ext j ∉ existing) →
      firstFreeName existing stem ext fuel i ∉ existing := by
  intro fuel
  induction fuel with
  | zero =>
    intro i h
    rcases h with ⟨j, h1, h2, _⟩
    omega
  | succ fuel ih =>
    intro i h
    rcases h with ⟨j, h1, h2, hj⟩
    rw [firstFreeName]
    by_cases hc : candName stem ext i ∈ existing
    · rw [if_pos hc]
      apply ih
      have hne : j ≠ i := fun he => hj (he ▸ hc)
      exact ⟨j, by omega, by omega, hj⟩
    · rw [if_neg hc]
      exact hc

theorem copyName_not_mem (existing : List (List Char)) (pfx base : List Char) :
    copyName existing pfx base ∉ existing := by
  unfold copyName
  by_cases hd : (pfx ++ '-' :: base) ∈ existing
  · rw [if_pos hd]
    apply firstFreeName_not_mem
    rcases exists_free_cand existing (pathSplitExt (pfx ++ '-' :: base)).1
      (pathSplitExt (pfx ++ '-' :: base)).2 with ⟨j, h2, h3, hj⟩
    exact ⟨j, h2, by omega, hj⟩
  · rw [if_neg hd]
    exact hd

theorem copyName_of_not_mem {existing : List (List Char)} {pfx base : List Char}
    (h : (pfx ++ '-' :: base) ∉ existing) :
    copyName existing pfx base = pfx ++ '-' :: base := by
  unfold copyName
  rw [if_neg h]

theorem runCopies_fresh (jobs : List CopyJob) :
    ∀ (existing : List (List Char)),
      (runCopies existing jobs).1.Nodup ∧
      ∀ n ∈ (runCopies existing jobs).1, n ∉ existing := by
  induction jobs with
  | nil =>
    intro existing
    constructor
    · exact List.nodup_nil
    · intro n hn
      exact absurd hn (List.not_mem_nil n)
  | cons j rest ih =>
    intro existing
    rw [runCopies]
    rcases ih (copyName existing j.pfx (pathBasename j.src) :: existing) with
      ⟨hnd, hfresh⟩
    constructor
    · refine List.nodup_cons.mpr ⟨?_, hnd⟩
      intro hmem
      exact hfresh _ hmem (List.mem_cons_self _ _)
    · intro n hn
      rcases List.mem_cons.mp hn with rfl | hn
      · exact copyName_not_mem existing j.pfx (pathBasename j.src)
      · intro hmem
        exact hfresh n hn (List.mem_cons_of_mem _ hmem)

theorem dedupByResolved_spec (fs : DistFs) :
    ∀ (l seen : List (List Char)),
      (∀ p ∈ dedupByResolved fs seen l, lowerStr (fs.resolve p) ∉ seen) ∧
      (dedupByResolved fs seen l).Pairwise
        (fun a b => lowerStr (fs.resolve a) ≠ lowerStr (fs.resolve b)) := by
  intro l
  induction l with
  | nil =>
    intro seen
    constructor
    · intro p hp
      exact absurd hp (List.not_mem_nil p)
    · exact List.Pairwise.nil
  | cons p rest ih =>
    intro seen
    rw [dedupByResolved]
    by_cases hk : lowerStr (fs.resolve p) ∈ seen
    · simp only [if_pos hk]
      exact ih seen
    · simp only [if_neg hk]
      rcases ih (lowerStr (fs.resolve p) :: seen) with ⟨hseen, hpw⟩
      constructor
      · intro q hq
        rcases List.mem_cons.mp hq with rfl | hq
        · exact hk
        · intro hmem
          exact hseen q hq (List.mem_cons_of_mem _ hmem)
      · refine List.pairwise_cons.mpr ⟨?_, hpw⟩
        intro b hb heq
        exact hseen b hb (heq ▸ List.mem_cons_self _ _)

theorem licClassifiersOf_eq_trimmed (cls : List (List Char)) :
    licClassifiersOf cls = specTrimmedLicenseValues cls := by
  induction cls with
  | nil => rfl
  | cons c rest ih =>
    unfold licClassifiersOf specTrimmedLicenseValues at ih ⊢
    rw [List.filterMap_cons, List.map_cons, List.filter_cons]
    by_cases hp : licMarker.isPrefixOf (pyStrip c) = true
    · simp only [hp, if_pos, ih]
    · simp only [Bool.not_eq_true] at hp
      simp only [hp, Bool.false_eq_true, if_false, ih]

theorem dedupFirstAux_eq_keepFirst (l : List (List Char)) :
    ∀ (seen : List (List Char)) (fuel : Nat), l.length ≤ fuel →
      dedupFirstAux seen l =
        dedupKeepFirstGo fuel (l.filter (fun y => y ∉ seen)) := by
  induction l with
  | nil =>
    intro seen fuel _
    rw [List.filter_nil]
    cases fuel <;> rfl
  | cons x xs ih =>
    intro seen fuel hfuel
    rw [List.length_cons] at hfuel
    rw [dedupFirstAux, List.filter_cons]
    by_cases hx : x ∈ seen
    · rw [if_pos hx, if_neg (by simp [hx])]
      exact ih seen fuel (by omega)
    · rw [if_neg hx, if_pos (by simp [hx])]
      cases fuel with
      | zero => omega
      | succ fuel =>
        have hstep :
            dedupKeepFirstGo (fuel + 1)
                (x :: xs.filter (fun y => y ∉ seen)) =
              x :: dedupKeepFirstGo fuel
                ((xs.filter (fun y => y ∉ seen)).filter (fun y => y ≠ x)) := rfl
        rw [hstep, List.filter_filter]
        have hpred : ∀ y ∈ xs,
            (decide (y ≠ x) && decide (y ∉ seen)) = decide (y ∉ x :: seen) := by
          intro y _
          by_cases h1 : y = x
          · simp [h1]
          · by_cases h2 : y ∈ seen <;> simp [h1, h2]
        rw [List.filter_congr hpred]
        rw [ih (x :: seen) fuel (by omega)]

theorem filter_not_mem_nil (l : List (List Char)) :
    l.filter (fun y => y ∉ ([] : List (List Char))) = l := by
  apply List.filter_eq_self.mpr
  intro a _
  simp

/-! ## Claim theorems -/

/-- C8 counterexample: on the input `" a"` (leading whitespace) the code's
`_norm_name` first strips the name and returns `"a"`, while the claim's
formula — whitespace-run collapse followed by unsafe-character replacement,
with no initial trim — returns `"_a"`.  The claim as stated is therefore
false. -/
theorem c8_counterexample :
    specNormalize (" a".data) = "_a".data ∧ normName (" a".data) = "a".data ∧
    specNormalize (" a".data) ≠ normName (" a".data) := by decide

/-- C8 (amended): `normalize(name)` equals the result of first trimming
leading and trailing whitespace, then replacing every run of whitespace with
a single underscore, then replacing every character outside
`[A-Za-z0-9._+-]` with underscore; it is a pure total function and its
output consists of safe characters only. -/
theorem c8_amended_norm_name (name : List Char) :
    normName name = specNormalize (pyStrip name) ∧
    ∀ c ∈ normName name, isSafeChar c = true := by
  constructor
  · rfl
  · intro c hc
    unfold normName reSubUnsafe at hc
    rcases List.mem_map.mp hc with ⟨b, _, rfl⟩
    by_cases hb : isSafeChar b = true
    · rw [if_pos hb]
      exact hb
    · rw [if_neg hb]
      decide

/-- C2 counterexample: on the classifier value
`" License :: License :: OSI Approved :: OSI Approved :: MIT"` the code's
guess (strip first, then delete every occurrence of the two markers) is
`"MIT"`, while the pipeline exactly as the claim words it (raw values
beginning with `"License ::"`, strip that prefix once, remove one embedded
marker) yields the empty guess.  The claim as stated is therefore false. -/
theorem c2_counterexample :
    shortFromClassifiers (licClassifiersOf exClsPathological) = "MIT".data ∧
    specClassifierGuess exClsPathological = [] := by decide

/-- C2 (amended): the classifier guess used by `infer` is built from exactly
the `Classifier` values whose whitespace-trimmed text begins with
`"License ::"`, by trimming each value, deleting every occurrence of
`"License ::"`, trimming, deduplicating while preserving first-seen order,
deleting every occurrence of `"OSI Approved ::"`, trimming, removing a
trailing literal `"License"` suffix (trimmed), and joining the tokens with
`"; "`; in particular, a distribution with Classifier values
`["License :: OSI Approved :: MIT License"]` and no `License` field infers
the label `"MIT"`. -/
theorem c2_amended_classifier_guess :
    (∀ cls : List (List Char),
      shortFromClassifiers (licClassifiersOf cls) =
        specClassifierGuessAmended cls) ∧
    inferLicenseFromMetadata exMetaMIT = "MIT".data := by
  constructor
  · intro cls
    have key : ∀ l : List (List Char), dedupFirstAux [] l = dedupKeepFirst l := by
      intro l
      unfold dedupKeepFirst
      rw [dedupFirstAux_eq_keepFirst l [] l.length (Nat.le_refl _),
        filter_not_mem_nil]
    unfold shortFromClassifiers specClassifierGuessAmended
    rw [licClassifiersOf_eq_trimmed]
    by_cases hnil : specTrimmedLicenseValues cls = []
    · rw [if_pos hnil, hnil]
      rfl
    · rw [if_neg hnil]
      simp only [key]
  · decide

/-- C1 counterexample: with metadata `License = "copyright"` and
`Classifier = ["License :: copyright"]`, the (trimmed) `License` field is
full-text-like, yet `infer` returns exactly `"copyright"` — the raw field
value appears verbatim as the returned label, because it coincides with
the classifier guess.  The claim's "never appears verbatim" part is
therefore false. -/
theorem c1_counterexample :
    looksLikeFullText (licFieldOf exMetaKeyword) = true ∧
    exMetaKeyword.licenseField = some ("copyright".data) ∧
    inferLicenseFromMetadata exMetaKeyword = "copyright".data := by decide

/-- C1 (amended): for every metadata input whose trimmed `License` field is
full-text-like, `infer` returns the classifier guess (or `"UNKNOWN"` when
the guess is empty); consequently the raw `License` field value appears
verbatim as the returned label only when it coincides with the classifier
guess. -/
theorem c1_amended_full_text (m : PyMetadata)
    (h : looksLikeFullText (licFieldOf m) = true) :
    inferLicenseFromMetadata m =
      (if classifierGuessOf m = [] then unknownTok else classifierGuessOf m) ∧
    ∀ raw, m.licenseField = some raw → raw ≠ classifierGuessOf m →
      inferLicenseFromMetadata m ≠ raw := by
  have heq : inferLicenseFromMetadata m =
      (if classifierGuessOf m = [] then unknownTok else classifierGuessOf m) := by
    simp only [inferLicenseFromMetadata]
    rw [if_pos h]
  refine ⟨heq, ?_⟩
  intro raw hraw hne
  rw [heq]
  by_cases hg : classifierGuessOf m = []
  · rw [if_pos hg]
    intro hu
    have hfield : licFieldOf m = pyStrip raw := by
      rw [licFieldOf, hraw]
      rfl
    rw [← hu] at hfield
    rw [hfield] at h
    exact absurd h (by decide)
  · rw [if_neg hg]
    exact fun he => hne he.symm

/-- C1 amended witness: a 38-character field containing the keyword
`warranty` is full-text-like; with no classifiers the label is `"UNKNOWN"`
and the raw field value does not come back. -/
theorem c1_amended_witness :
    inferLicenseFromMetadata exMetaWarranty = unknownTok ∧
    inferLicenseFromMetadata exMetaWarranty ≠
      "Provided with no warranty of any kind".data := by
  have h := c1_amended_full_text exMetaWarranty (by decide)
  refine ⟨?_, ?_⟩
  · rw [h.1]
    decide
  · exact h.2 _ rfl (by decide)

/-- C5 counterexample: a single classifier value containing an embedded
newline flows into the returned label unchanged, so the inferred label is
not a single line.  The claim as stated is therefore false. -/
theorem c5_counterexample :
    inferLicenseFromMetadata exMetaNewline = "A\nB".data ∧
    '\n' ∈ inferLicenseFromMetadata exMetaNewline := by decide

/-- C5 (amended): for every metadata input whose `Classifier` values contain
no line-break characters, the label returned by `infer` contains no newline
and no carriage return.  (A classifier value with an embedded line break is
passed through to the label; the `License` field itself can never contribute
one, because a field containing a line break is full-text-like and is then
replaced by the classifier guess.) -/
theorem c5_amended_single_line (m : PyMetadata)
    (h : ∀ c ∈ m.classifiers, '\n' ∉ c ∧ '\x0d' ∉ c) :
    '\n' ∉ inferLicenseFromMetadata m ∧ '\x0d' ∉ inferLicenseFromMetadata m := by
  have hguess : '\n' ∉ classifierGuessOf m ∧ '\x0d' ∉ classifierGuessOf m := by
    constructor
    · intro hmem
      rcases mem_classifierGuess hmem with hs | ⟨c, hc, hm⟩
      · exact absurd hs (by decide)
      · exact (h c hc).1 hm
    · intro hmem
      rcases mem_classifierGuess hmem with hs | ⟨c, hc, hm⟩
      · exact absurd hs (by decide)
      · exact (h c hc).2 hm
  have hunk : '\n' ∉ unknownTok ∧ '\x0d' ∉ unknownTok := by decide
  simp only [inferLicenseFromMetadata]
  by_cases hftl : looksLikeFullText (licFieldOf m) = true
  · rw [if_pos hftl]
    by_cases hg : classifierGuessOf m = []
    · rw [if_pos hg]
      exact hunk
    · rw [if_neg hg]
      exact hguess
  · rw [if_neg hftl]
    by_cases hcond : licFieldOf m ≠ [] ∧ upperStr (licFieldOf m) ≠ unknownTok
    · rw [if_pos hcond]
      have hfalse : looksLikeFullText (licFieldOf m) = false := by
        cases hb : looksLikeFullText (licFieldOf m) with
        | false => rfl
        | true => exact absurd hb hftl
      exact newline_not_mem_of_not_fullText hcond.1 hfalse
    · rw [if_neg hcond]
      by_cases hg : classifierGuessOf m = []
      · rw [if_pos hg]
        exact hunk
      · rw [if_neg hg]
        exact hguess

/-- C5 amended witness: the MIT scenario satisfies the side condition and
yields a single-line label. -/
theorem c5_amended_witness :
    '\n' ∉ inferLicenseFromMetadata exMetaMIT ∧
    '\x0d' ∉ inferLicenseFromMetadata exMetaMIT :=
  c5_amended_single_line exMetaMIT (by decide)

/-- C6: `infer` never returns the empty string, and when there is no usable
signal — no qualifying classifier and a `License` field that is empty or
case-insensitively `"UNKNOWN"` — it returns exactly `"UNKNOWN"`. -/
theorem c6_never_empty_unknown (m : PyMetadata) :
    inferLicenseFromMetadata m ≠ [] ∧
    (licClassifiersOf m.classifiers = [] ∧
        (licFieldOf m = [] ∨ upperStr (licFieldOf m) = unknownTok) →
      inferLicenseFromMetadata m = unknownTok) := by
  constructor
  · simp only [inferLicenseFromMetadata]
    by_cases hftl : looksLikeFullText (licFieldOf m) = true
    · rw [if_pos hftl]
      by_cases hg : classifierGuessOf m = []
      · rw [if_pos hg]
        decide
      · rw [if_neg hg]
        exact hg
    · rw [if_neg hftl]
      by_cases hc : licFieldOf m ≠ [] ∧ upperStr (licFieldOf m) ≠ unknownTok
      · rw [if_pos hc]
        exact hc.1
      · rw [if_neg hc]
        by_cases hg : classifierGuessOf m = []
        · rw [if_pos hg]
          decide
        · rw [if_neg hg]
          exact hg
  · rintro ⟨hcls, hfield⟩
    have hg : classifierGuessOf m = [] := by
      rw [classifierGuessOf, hcls]
      rfl
    simp only [inferLicenseFromMetadata]
    rcases hfield with hf | hf
    · rw [hf]
      rw [if_neg (by decide : ¬(looksLikeFullText [] = true))]
      rw [if_neg (by simp)]
      rw [if_pos hg]
    · have hftl : looksLikeFullText (licFieldOf m) = false :=
        looksLikeFullText_false_of_upper_unknown hf
      rw [if_neg (by simp [hftl])]
      rw [if_neg (fun hc => hc.2 hf)]
      rw [if_pos hg]

/-- C6 witness: metadata with no classifiers and no `License` field yields
a non-empty label, namely `"UNKNOWN"`. -/
theorem c6_witness :
    inferLicenseFromMetadata ⟨[], none⟩ ≠ [] ∧
    inferLicenseFromMetadata ⟨[], none⟩ = unknownTok := by
  have h := c6_never_empty_unknown ⟨[], none⟩
  exact ⟨h.1, h.2 (by decide)⟩

/-- C7: the sequence returned by the Locator contains no two entries whose
resolved absolute paths are equal under case-insensitive comparison (the
final deduplication loop keys every kept path by its lowercased resolved
path); the embedded Locator is a total function, returning a (possibly
empty) list on every input. -/
theorem c7_locate_dedup (fs : DistFs) (files : Option (List (List Char)))
    (walk : Option (List WalkEntry)) :
    (selectLicenseFilesFromDist fs files walk).Pairwise
      (fun a b => lowerStr (fs.resolve a) ≠ lowerStr (fs.resolve b)) := by
  unfold selectLicenseFilesFromDist
  exact (dedupByResolved_spec fs _ []).2

/-- C3 (code bug): the manifest entry
`foo-1.0.dist-info/licenses/AUTHORS.txt` sits under the `licenses/`
subdirectory of the metadata directory `foo-1.0.dist-info` and exists on
disk as a regular file, yet the primary tier selects nothing: the code's
substring test `"/.dist-info/" in s` demands a `/` immediately before
`.dist-info`, so it can never fire for a real metadata directory name, and
the basename `AUTHORS.txt` fails the license-basename fallback. -/
theorem c3_licenses_subdir_entry_skipped :
    underMetaLicensesSubdir exAuthorsEntry = true ∧
    exFsAllFiles.isFile (exFsAllFiles.locate exAuthorsEntry) = true ∧
    selectLicenseFilesFromDist exFsAllFiles (some [exAuthorsEntry]) none = [] := by
  decide

/-- C4: collision-safe copying.  A single `_copy_with_unique_name` call
never picks a name that already exists in the output directory, and uses
the plain `<prefix>-<basename>` target whenever that is free; consequently,
over a whole run, the copied names are pairwise distinct and disjoint from
everything that existed before the run — no copy ever overwrites an
existing file. -/
theorem c4_copy_unique :
    (∀ (existing : List (List Char)) (pfx base : List Char),
      copyName existing pfx base ∉ existing ∧
      ((pfx ++ '-' :: base) ∉ existing →
        copyName existing pfx base = pfx ++ '-' :: base)) ∧
    (∀ (existing : List (List Char)) (jobs : List CopyJob),
      (runCopies existing jobs).1.Nodup ∧
      ∀ n ∈ (runCopies existing jobs).1, n ∉ existing) := by
  constructor
  · intro existing pfx base
    exact ⟨copyName_not_mem existing pfx base, fun h => copyName_of_not_mem h⟩
  · intro existing jobs
    exact runCopies_fresh jobs existing

/-- C4 witness: a collision with an existing `pkg-LICENSE` is resolved to a
fresh name, and a free target is used as-is. -/
theorem c4_copy_unique_witness :
    copyName ["pkg-LICENSE".data] ("pkg".data) ("LICENSE".data) ∉
      ["pkg-LICENSE".data] ∧
    copyName [] ("pkg".data) ("LICENSE".data) =
      "pkg".data ++ '-' :: "LICENSE".data := by
  have h := c4_copy_unique
  exact ⟨(h.1 ["pkg-LICENSE".data] ("pkg".data) ("LICENSE".data)).1,
    (h.1 [] ("pkg".data) ("LICENSE".data)).2 (by decide)⟩

theorem processDist_skip_of_excluded (exclude : List (List Char))
    (st : List (List Char)) (d : DistEntry)
    (h : lowerStr (normName (effName d)) ∈ exclude ∨
      lowerStr (effName d) ∈ exclude) :
    processDist exclude st d = (none, [], st) := by
  simp only [processDist]
  by_cases hname : effName d = []
  · rw [if_pos hname]
  · rw [if_neg hname, if_pos h]

theorem collectLoop_filter_excluded (exclude : List (List Char)) :
    ∀ (l : List DistEntry) (st : List (List Char)),
      collectLoop exclude st l =
        collectLoop exclude st (l.filter (fun d =>
          !(decide (lowerStr (normName (effName d)) ∈ exclude) ||
            decide (lowerStr (effName d) ∈ exclude)))) := by
  intro l
  induction l with
  | nil => intro st; rfl
  | cons d rest ih =>
    intro st
    rw [List.filter_cons]
    by_cases hskip : lowerStr (normName (effName d)) ∈ exclude ∨
        lowerStr (effName d) ∈ exclude
    · have hb : (!(decide (lowerStr (normName (effName d)) ∈ exclude) ||
          decide (lowerStr (effName d) ∈ exclude))) = false := by
        rcases hskip with h | h <;> simp [h]
      rw [if_neg (by rw [hb]; exact Bool.false_ne_true)]
      rw [collectLoop]
      rw [processDist_skip_of_excluded exclude st d hskip]
      simp only [Option.toList_none, List.nil_append]
      exact ih st
    · rw [if_pos (by simp [not_or.mp hskip])]
      rw [collectLoop, collectLoop]
      rw [← ih]

/-- C9 counterexample: the distribution named `Foo` has its normalized name
`Foo` in the exclude set `{"Foo"}`, yet the Collector produces a result
record for it and emits a warning about it — the code compares the
lowercased normalized name against the set, so a non-lowercase exclude
entry never matches.  The claim as stated is therefore false. -/
theorem c9_counterexample :
    normName ("Foo".data) ∈ ["Foo".data] ∧
    processDist ["Foo".data] [] exDistFoo =
      (some ⟨"Foo".data, "1.0".data, unknownTok, []⟩,
       [warnNoLicense ("Foo".data) ("1.0".data)], []) := by decide

/-- C9 (amended): for every distribution whose lowercased normalized name or
raw lowercase name is in the exclude set, the Collector produces no
`LicenseCopyResult` record for it, emits no warning about it and leaves the
output directory untouched; the whole catalog loop is unchanged when such
distributions are removed from its input.  In particular `--exclude pip`
(which the driver normalizes and lowercases to `pip`) causes a distribution
literally named `pip` to produce no result entry and no warning. -/
theorem c9_amended_skip (exclude : List (List Char)) :
    (∀ (st : List (List Char)) (d : DistEntry),
      lowerStr (normName (effName d)) ∈ exclude ∨
        lowerStr (effName d) ∈ exclude →
      processDist exclude st d = (none, [], st)) ∧
    (∀ (st : List (List Char)) (l : List DistEntry),
      collectLoop exclude st l =
        collectLoop exclude st (l.filter (fun d =>
          !(decide (lowerStr (normName (effName d)) ∈ exclude) ||
            decide (lowerStr (effName d) ∈ exclude))))) := by
  constructor
  · intro st d h
    exact processDist_skip_of_excluded exclude st d h
  · intro st l
    exact collectLoop_filter_excluded exclude l st

/-- C9 amended witness: with exclude set `{"pip"}`, the distribution
literally named `pip` contributes no record, no warning and no file. -/
theorem c9_amended_witness :
    processDist ["pip".data] [] exDistPip = (none, [], []) :=
  (c9_amended_skip ["pip".data]).1 [] exDistPip (by decide)

/-- C10: a catalog distribution whose `Name` metadata field and fallback
name are both missing or empty is silently skipped by the Collector: no
result record, no warning, no change to the output directory — regardless
of the exclude set. -/
theorem c10_nameless_silently_skipped (exclude : List (List Char))
    (st : List (List Char)) (d : DistEntry)
    (h1 : d.metaName = []) (h2 : d.fbName = []) :
    processDist exclude st d = (none, [], st) := by
  have hname : effName d = [] := by
    rw [effName, if_pos h1]
    exact h2
  simp only [processDist]
  rw [if_pos hname]

/-- C10 witness: a concrete nameless distribution is skipped even with an
empty exclude set. -/
theorem c10_witness :
    processDist [] [] exDistNameless = (none, [], []) :=
  c10_nameless_silently_skipped [] [] exDistNameless rfl rfl

/-- C8 amended witness: on `"very cool pkg!"` the code's normalization
agrees with trim-then-spec-pipeline, and a sample output character is
safe. -/
theorem c8_amended_witness :
    normName ("very cool pkg!".data) =
      specNormalize (pyStrip ("very cool pkg!".data)) ∧
    isSafeChar 'v' = true := by
  have h := c8_amended_norm_name ("very cool pkg!".data)
  exact ⟨h.1, h.2 'v' (by decide)⟩
